import Mathlib

/-!
Shallow embedding of `StaticSymbolResolver`
(`src/modules/@angular/compiler/src/aot/static_symbol_resolver.ts`).

Modelling conventions:

- `StaticSymbol` (from `./static_symbol`, not part of the sources here) is the
  identity triple (filePath, name, members).  `StaticSymbolCache.get` interns
  triples so that referential identity coincides with structural equality of
  the triple; handles are therefore modelled as the triples themselves, and
  `getStaticSymbol` is the plain constructor.
- Metadata values (`any` in TypeScript) are modelled by the inductive
  `MetaVal`: JSON-like trees plus `StaticSymbol` objects.  JavaScript `null`
  and `undefined` are conflated into `MetaVal.null`; reference/module names
  are modelled as strings (the metadata schema only ever puts strings there).
- The mutable resolver fields (`metadataCache`, `resolvedSymbols`,
  `resolvedFilePaths`, plus the error-recorder log) form the explicit state
  `RState`; every method is a function `RState → Except RErr α × RState`.
  A thrown JavaScript exception is `Except.error (RErr.thrown msg)`; state
  mutations made before the throw persist in the returned state.
- The external collaborators (host, summary resolver, presence of the
  optional `errorRecorder`) are the environment `Env`.  The host's
  `moduleNameToFileName` is modelled as returning `Option String`
  (`none` = unresolvable, i.e. a falsy return value).
- The recursion `_createSymbolsOf` → `getSymbolsOf` → `_createSymbolsOf`
  (wildcard re-exports) is not structurally terminating for an arbitrary
  host, mirroring the unbounded recursion of the source; it is embedded with
  a fuel parameter, `RErr.outOfFuel` marking fuel exhaustion.  The
  visited-set check is performed before the fuel check, exactly as the
  source checks `resolvedFilePaths` before doing any work.
-/

/-- Identity triple of `StaticSymbol` (static_symbol.ts); interning by
`StaticSymbolCache` makes identity equal structural equality. -/
structure StaticSymbol where
  filePath : String
  name : String
  members : List String
deriving DecidableEq

/-- Loosely typed metadata trees (`any` in the source): primitives, arrays,
plain string-keyed objects, and `StaticSymbol` instances. -/
inductive MetaVal where
  | null : MetaVal
  | num : Int → MetaVal
  | str : String → MetaVal
  | bool : Bool → MetaVal
  | sym : StaticSymbol → MetaVal
  | arr : List MetaVal → MetaVal
  | map : List (String × MetaVal) → MetaVal

/-- One entry of a module's `exports` array: `'name'` shorthand or
`{name, as}` (source name, exported alias). -/
inductive ExportSpec where
  | plain : String → ExportSpec
  | renamed : String → String → ExportSpec

/-- One export directive: `export {…} from m` (`exportList = some …`) or
`export * from m` (`exportList = none`, i.e. no `export` field). -/
structure ExportDirective where
  exportList : Option (List ExportSpec)
  fromModule : String

/-- The shape of a metadata document as read by the resolver:
`metadata['version']`, `metadata['metadata']` (declared name → raw node,
in key order) and `metadata['exports']`.  `none` models an absent field. -/
structure ModuleMetadata where
  version : Int
  metadata : Option (List (String × MetaVal))
  exports : Option (List ExportDirective)

/-- Abnormal outcomes: a thrown JavaScript error, or exhaustion of the fuel
that the embedding adds to the source's unbounded recursion. -/
inductive RErr where
  | thrown : String → RErr
  | outOfFuel : RErr

/-- The mutable fields of one `StaticSymbolResolver` instance.  Maps are
association lists in insertion order (JavaScript `Map`/`Set` iteration
order); `errors` logs the strings passed to the `errorRecorder`. -/
structure RState where
  metadataCache : List (String × ModuleMetadata)
  resolvedSymbols : List (StaticSymbol × MetaVal)
  resolvedFilePaths : List String
  errors : List String

/-- External collaborators of the resolver: the `StaticSymbolResolverHost`,
the `SummaryResolver`, and whether an `errorRecorder` is configured. -/
structure Env where
  hostGetMetadataFor : String → Option (List ModuleMetadata)
  hostModuleNameToFileName : String → String → Option String
  summaryResolveSummary : StaticSymbol → Option MetaVal
  summaryGetSymbolsOf : String → List StaticSymbol
  hasErrorRecorder : Bool

/-- Stateful computations of the resolver. -/
abbrev M (α : Type) : Type := RState → Except RErr α × RState

/-- The freshly constructed resolver: all caches empty. -/
def initialState : RState := ⟨[], [], [], []⟩

/-- Association-list lookup, first binding wins (JavaScript `Map.get`). -/
def alookup {κ α : Type} [DecidableEq κ] : List (κ × α) → κ → Option α
  | [], _ => none
  | (k, v) :: rest, key => if k = key then some v else alookup rest key

/-- Association-list update (JavaScript `Map.set`): overwrite in place if the
key exists, else append. -/
def aset {κ α : Type} [DecidableEq κ] : List (κ × α) → κ → α → List (κ × α)
  | [], k, v => [(k, v)]
  | (k', v') :: rest, k, v =>
    if k' = k then (k, v) :: rest else (k', v') :: aset rest k v

/-- Register a batch of resolved symbols
(`resolvedSymbols.forEach(… => this.resolvedSymbols.set(…))`). -/
def setPairs (l : List (StaticSymbol × MetaVal)) (ps : List (StaticSymbol × MetaVal)) :
    List (StaticSymbol × MetaVal) :=
  ps.foldl (fun acc q => aset acc q.1 q.2) l

/-- JavaScript truthiness of a metadata value. -/
def truthy : MetaVal → Bool
  | MetaVal.null => false
  | MetaVal.num n => n ≠ 0
  | MetaVal.str s => s ≠ ""
  | MetaVal.bool b => b
  | MetaVal.sym _ => true
  | MetaVal.arr _ => true
  | MetaVal.map _ => true

/-- Test `v === 'lit'` for an optionally present field value. -/
def isStrEq : Option MetaVal → String → Bool
  | some (MetaVal.str s), t => s = t
  | _, _ => false

/-- A field value as a truthy string (`if (module)`, `if (!name)`):
an absent, empty or non-string value is `none`. -/
def asPresentStr : Option MetaVal → Option String
  | some (MetaVal.str s) => if s = "" then none else some s
  | _ => none

/-- Object/array indexing `value[member]` used by the member-path walk:
object key lookup, or array indexing when the member is a numeral; anything
else yields `undefined` (`MetaVal.null`). -/
def indexVal : MetaVal → String → MetaVal
  | MetaVal.map kvs, k => (alookup kvs k).getD MetaVal.null
  | MetaVal.arr xs, k =>
    (match k.toNat? with
     | some i => xs.getD i MetaVal.null
     | none => MetaVal.null)
  | _, _ => MetaVal.null

/-- The member-path walk of `_resolveSymbolMembers`:
`for (let i = 0; i < members.length && value; i++) value = value[members[i]]`. -/
def walkMembers (v : MetaVal) : List String → MetaVal
  | [] => v
  | m :: rest => if truthy v then walkMembers (indexVal v m) rest else v

/-- Does the base metadata satisfy
`baseMetadata && baseMetadata.__symbolic === 'class'`? -/
def isClassMeta : MetaVal → Bool
  | MetaVal.map kvs => isStrEq (alookup kvs "__symbolic") "class"
  | _ => false

/-- `resolveModule`: delegate to `host.moduleNameToFileName`; a falsy result
(modelled as `none` or the empty string) means the specifier is unresolvable. -/
def resolveModule (env : Env) (module containingFile : String) : Option String :=
  match env.hostModuleNameToFileName module containingFile with
  | some fp => if fp = "" then none else some fp
  | none => none

def SUPPORTED_SCHEMA_VERSION : Int := 3

/-- The document synthesized by `getModuleMetadata` when the host has no
metadata: supported version, empty declaration map, no exports. -/
def emptyModuleMetadata : ModuleMetadata :=
  { version := SUPPORTED_SCHEMA_VERSION, metadata := some [], exports := none }

/-- The version-mismatch error message of `getModuleMetadata` (special text
for the legacy version 2). -/
def mismatchMessage (module : String) (v : Int) : String :=
  if v = 2 then
    "Unsupported metadata version " ++ toString v ++ " for module " ++ module ++
      ". This module should be compiled with a newer version of ngc"
  else
    "Metadata version mismatch for module " ++ module ++ ", found version " ++
      toString v ++ ", expected " ++ toString SUPPORTED_SCHEMA_VERSION

/-- One step of the maximum-version scan over the candidate documents:
keep the new candidate only when its version is strictly greater. -/
def selectStep (acc : Int × Option ModuleMetadata) (md : ModuleMetadata) :
    Int × Option ModuleMetadata :=
  if md.version > acc.1 then (md.version, some md) else acc

/-- The maximum-version selection of `getModuleMetadata`: fold `selectStep`
starting from `maxVersion = -1`, `moduleMetadata = undefined`. -/
def selectMeta (mds : List ModuleMetadata) : Option ModuleMetadata :=
  (mds.foldl selectStep (-1, none)).2

/-- `getModuleMetadata`: cached per file; on a miss query the host, keep the
highest-version document (first wins on ties), synthesize an empty document
when there is none, report (or throw, without a recorder) on a version
mismatch, then cache and return the document. -/
def getModuleMetadata (env : Env) (module : String) : M ModuleMetadata := fun st =>
  match alookup st.metadataCache module with
  | some md => (Except.ok md, st)
  | none =>
    let md := (match env.hostGetMetadataFor module with
               | some mds => selectMeta mds
               | none => none).getD emptyModuleMetadata
    if md.version = SUPPORTED_SCHEMA_VERSION then
      (Except.ok md, { st with metadataCache := st.metadataCache ++ [(module, md)] })
    else if env.hasErrorRecorder then
      (Except.ok md,
       { st with metadataCache := st.metadataCache ++ [(module, md)],
                 errors := st.errors ++ [mismatchMessage module md.version] })
    else
      (Except.error (RErr.thrown (mismatchMessage module md.version)), st)

/-- The strings among an optional `parameters` array
(`functionParams.push(...(map['parameters'] || []))`; only string entries can
later match a reference name). -/
def strElems : List MetaVal → List String
  | [] => []
  | MetaVal.str s :: rest => s :: strElems rest
  | _ :: rest => strElems rest

def paramNames : Option MetaVal → List String
  | some (MetaVal.arr xs) => strElems xs
  | _ => []

/-- The message of the error marker produced for an unresolvable module
specifier inside a reference node. -/
def errorMessageFor (module file : String) : String :=
  "Could not resolve " ++ module ++ " relative to " ++ file ++ "."

/-- The `'reference'` case of `ReferenceTransformer.visitStringMap`: an
absent name yields `null`; a present module specifier is resolved (error
marker on failure); otherwise a name in scope stays a lexical reference
marker and anything else becomes a handle into the current file. -/
def refResult (env : Env) (file : String) (params : List String)
    (moduleV nameV : Option MetaVal) : MetaVal :=
  match asPresentStr nameV with
  | none => MetaVal.null
  | some n =>
    match asPresentStr moduleV with
    | some m =>
      (match resolveModule env m file with
       | some fp => MetaVal.sym ⟨fp, n, []⟩
       | none =>
         MetaVal.map [("__symbolic", MetaVal.str "error"),
                      ("message", MetaVal.str (errorMessageFor m file))])
    | none =>
      if params.contains n then
        MetaVal.map [("__symbolic", MetaVal.str "reference"), ("name", MetaVal.str n)]
      else MetaVal.sym ⟨file, n, []⟩

mutual

/-- `visitValue` with the `ReferenceTransformer` of `createResolvedSymbol`:
arrays and plain objects are rebuilt recursively (`ValueTransformer`, from
`../util`, rebuilds all other nodes with no special handling — modelled from
the spec, the file is not among the sources); `'function'` objects extend the
parameter scope for their whole subtree and restore it afterwards (explicit
scope passing replaces the push/truncate on the shared array); `'reference'`
objects are rewritten by `refResult`; primitives and `StaticSymbol` instances
are returned unchanged. -/
def transformVal (env : Env) (file : String) (params : List String) : MetaVal → MetaVal
  | MetaVal.arr xs => MetaVal.arr (transformList env file params xs)
  | MetaVal.map kvs =>
    if isStrEq (alookup kvs "__symbolic") "function" then
      MetaVal.map (transformEntries env file (params ++ paramNames (alookup kvs "parameters")) kvs)
    else if isStrEq (alookup kvs "__symbolic") "reference" then
      refResult env file params (alookup kvs "module") (alookup kvs "name")
    else
      MetaVal.map (transformEntries env file params kvs)
  | v => v

def transformList (env : Env) (file : String) (params : List String) :
    List MetaVal → List MetaVal
  | [] => []
  | x :: xs => transformVal env file params x :: transformList env file params xs

def transformEntries (env : Env) (file : String) (params : List String) :
    List (String × MetaVal) → List (String × MetaVal)
  | [] => []
  | (k, v) :: kvs => (k, transformVal env file params v) :: transformEntries env file params kvs

end

/-- `createResolvedSymbol` applied to every directly declared name of a
document: transform the raw metadata with an empty parameter scope and pair
it with the handle `(filePath, name)`. -/
def declaredSymbols (env : Env) (filePath : String) (md : ModuleMetadata) :
    List (StaticSymbol × MetaVal) :=
  (md.metadata.getD []).map fun p =>
    ((⟨filePath, p.1, []⟩ : StaticSymbol), transformVal env filePath [] p.2)

/-- The exported alias of one entry of an explicit export list
(`exportSymbol.as` for objects, the string itself otherwise). -/
def exportAlias : ExportSpec → String
  | ExportSpec.plain s => s
  | ExportSpec.renamed _ a => a

/-- The source name of one entry of an explicit export list
(`exportSymbol.name` for objects, the string itself otherwise). -/
def exportSource : ExportSpec → String
  | ExportSpec.plain s => s
  | ExportSpec.renamed n _ => n

/-- The alias entries registered for one explicit export directive: for each
listed name, `(filePath, alias) ↦ handle (targetFile, sourceName)`; entries
whose module specifier does not resolve are skipped silently. -/
def explicitPairs (env : Env) (filePath fromModule : String) (specs : List ExportSpec) :
    List (StaticSymbol × MetaVal) :=
  specs.filterMap fun es =>
    match resolveModule env fromModule filePath with
    | some rm =>
      some ((⟨filePath, exportAlias es, []⟩ : StaticSymbol),
            MetaVal.sym ⟨rm, exportSource es, []⟩)
    | none => none

/-- Skip-free insertion used to model the JavaScript `Set` built by
`getSymbolsOf` (insertion order, duplicates ignored). -/
def insertDistinct (acc : List StaticSymbol) (x : StaticSymbol) : List StaticSymbol :=
  if x ∈ acc then acc else acc ++ [x]

def insertAll (acc : List StaticSymbol) (xs : List StaticSymbol) : List StaticSymbol :=
  xs.foldl insertDistinct acc

/-- One step of the cache scan of `getSymbolsOf`: add the symbol of a cached
resolved symbol when its declaring file matches. -/
def collectStep (filePath : String) (acc : List StaticSymbol) (p : StaticSymbol × MetaVal) :
    List StaticSymbol :=
  if p.1.filePath = filePath then insertDistinct acc p.1 else acc

/-- The result list of `getSymbolsOf`: the summary collaborator's symbols for
the file, then every cached resolved symbol declared in the file, in
insertion order without duplicates. -/
def collectSymbols (env : Env) (filePath : String) (st : RState) : List StaticSymbol :=
  st.resolvedSymbols.foldl (collectStep filePath)
    (insertAll [] (env.summaryGetSymbolsOf filePath))

/-- `getSymbolsOf` given the export walker as a function: run the walker for
the file, then collect. -/
def getSymbolsOfAux (env : Env) (cso : String → M Unit) (filePath : String) :
    M (List StaticSymbol) := fun st =>
  match cso filePath st with
  | (Except.error e, st') => (Except.error e, st')
  | (Except.ok _, st') => (Except.ok (collectSymbols env filePath st'), st')

/-- Processing of the `exports` array of one document, given `getSymbolsOf`
as a function for the wildcard recursion: explicit directives produce alias
pairs directly; a wildcard directive recursively obtains the target file's
symbol set and aliases each symbol; unresolvable specifiers contribute
nothing.  Returns the pairs in directive order. -/
def processExportsGo (env : Env) (gso : String → M (List StaticSymbol)) (filePath : String) :
    List ExportDirective → M (List (StaticSymbol × MetaVal))
  | [], st => (Except.ok [], st)
  | d :: ds, st =>
    match d.exportList with
    | some specs =>
      (match processExportsGo env gso filePath ds st with
       | (Except.ok rest, st') =>
         (Except.ok (explicitPairs env filePath d.fromModule specs ++ rest), st')
       | (Except.error e, st') => (Except.error e, st'))
    | none =>
      match resolveModule env d.fromModule filePath with
      | none => processExportsGo env gso filePath ds st
      | some rm =>
        match gso rm st with
        | (Except.error e, st') => (Except.error e, st')
        | (Except.ok targets, st') =>
          match processExportsGo env gso filePath ds st' with
          | (Except.ok rest, st2) =>
            (Except.ok ((targets.map fun t =>
               ((⟨filePath, t.name, []⟩ : StaticSymbol), MetaVal.sym t)) ++ rest), st2)
          | (Except.error e, st2) => (Except.error e, st2)

/-- `_createSymbolsOf`: a no-op for an already visited file; otherwise mark
the file visited first, load its document, build the resolved symbols of its
declarations and export directives (recursing through `getSymbolsOf` for
wildcards, at one fuel less), and finally register them all in the
resolved-symbol cache. -/
def createSymbolsOf (env : Env) : Nat → String → M Unit
  | 0, filePath, st =>
    if st.resolvedFilePaths.contains filePath then (Except.ok (), st)
    else (Except.error RErr.outOfFuel, st)
  | fuel + 1, filePath, st =>
    if st.resolvedFilePaths.contains filePath then (Except.ok (), st)
    else
      match getModuleMetadata env filePath
          { st with resolvedFilePaths := filePath :: st.resolvedFilePaths } with
      | (Except.error e, st2) => (Except.error e, st2)
      | (Except.ok md, st2) =>
        match processExportsGo env (getSymbolsOfAux env (createSymbolsOf env fuel)) filePath
            (md.exports.getD []) st2 with
        | (Except.error e, st3) => (Except.error e, st3)
        | (Except.ok exps, st3) =>
          (Except.ok (),
           { st3 with resolvedSymbols :=
               setPairs st3.resolvedSymbols (declaredSymbols env filePath md ++ exps) })

/-- `getSymbolsOf(filePath)`. -/
def getSymbolsOf (env : Env) (fuel : Nat) : String → M (List StaticSymbol) :=
  getSymbolsOfAux env (createSymbolsOf env fuel)

/-- `_resolveSymbolFromSummary`. -/
def resolveSymbolFromSummary (env : Env) (s : StaticSymbol) :
    Option (StaticSymbol × MetaVal) :=
  match env.summaryResolveSummary s with
  | some md => some (s, md)
  | none => none

/-- `resolveSymbol` on a handle without members: try the summary first, else
run the export walker for the declaring file and look the handle up in the
resolved-symbol cache (`undefined`, i.e. `none`, when still absent). -/
def resolveSymbolBase (env : Env) (fuel : Nat) (filePath name : String) :
    M (Option (StaticSymbol × MetaVal)) := fun st =>
  match resolveSymbolFromSummary env ⟨filePath, name, []⟩ with
  | some r => (Except.ok (some r), st)
  | none =>
    match createSymbolsOf env fuel filePath st with
    | (Except.error e, st') => (Except.error e, st')
    | (Except.ok _, st') =>
      (Except.ok ((alookup st'.resolvedSymbols ⟨filePath, name, []⟩).map
         fun m => ((⟨filePath, name, []⟩ : StaticSymbol), m)), st')

/-- The `'class'`-with-`statics` projection of `_resolveSymbolMembers`:
defined only when `statics` is truthy and the member path has exactly one
element; otherwise the method falls through to `return null`. -/
def staticsProject (s : StaticSymbol) (bm : MetaVal) : Option (StaticSymbol × MetaVal) :=
  match bm, s.members with
  | MetaVal.map kvs, [m] =>
    (match alookup kvs "statics" with
     | some statics => if truthy statics then some (s, indexVal statics m) else none
     | none => none)
  | _, _ => none

/-- `_resolveSymbolMembers`: resolve the base handle (empty member path);
an alias base forwards the whole member path to the aliased handle; a class
base projects through `statics`; any other base value is walked member by
member. -/
def resolveSymbolMembers (env : Env) (fuel : Nat) (s : StaticSymbol) :
    M (Option (StaticSymbol × MetaVal)) := fun st =>
  match resolveSymbolBase env fuel s.filePath s.name st with
  | (Except.error e, st') => (Except.error e, st')
  | (Except.ok none, st') => (Except.ok none, st')
  | (Except.ok (some (_, bm)), st') =>
    match bm with
    | MetaVal.sym b =>
      (Except.ok (some (s, MetaVal.sym ⟨b.filePath, b.name, s.members⟩)), st')
    | _ =>
      if isClassMeta bm then (Except.ok (staticsProject s bm), st')
      else (Except.ok (some (s, walkMembers bm s.members)), st')

/-- `resolveSymbol`: member-path handles are projected on demand; handles
without members go through summary/cache. -/
def resolveSymbol (env : Env) (fuel : Nat) (s : StaticSymbol) :
    M (Option (StaticSymbol × MetaVal)) :=
  match s.members with
  | [] => resolveSymbolBase env fuel s.filePath s.name
  | _ :: _ => resolveSymbolMembers env fuel s

/-! ### Concrete instances used by the claims -/

/-- Document of file `A`: no declarations, one explicit re-export
`export {x as y} from 'B'`. -/
def docA2 : ModuleMetadata :=
  ⟨3, none, some [⟨some [ExportSpec.renamed "x" "y"], "B"⟩]⟩

/-- Document of file `B`: declares `x = 5`. -/
def docB2 : ModuleMetadata :=
  ⟨3, some [("x", MetaVal.num 5)], none⟩

/-- Environment with files `A` (re-exports `x` as `y` from `B`) and `B`
(declares `x = 5`); module specifiers resolve to themselves. -/
def envC2 : Env :=
  { hostGetMetadataFor := fun f =>
      if f = "A" then some [docA2] else if f = "B" then some [docB2] else none,
    hostModuleNameToFileName := fun m _ => some m,
    summaryResolveSummary := fun _ => none,
    summaryGetSymbolsOf := fun _ => [],
    hasErrorRecorder := true }

/-- Resolver state after processing file `A` of `envC2`. -/
def stC2a : RState :=
  ⟨[("A", docA2)], [(⟨"A", "y", []⟩, MetaVal.sym ⟨"B", "x", []⟩)], ["A"], []⟩

/-- Resolver state after additionally processing file `B` of `envC2`. -/
def stC2b : RState :=
  ⟨[("A", docA2), ("B", docB2)],
   [(⟨"A", "y", []⟩, MetaVal.sym ⟨"B", "x", []⟩), (⟨"B", "x", []⟩, MetaVal.num 5)],
   ["B", "A"], []⟩

/-- Environment with a mutual wildcard-export cycle: file `A` declares
`a = 1` and wildcard-exports from `B`; file `B` declares `b = 2` and
wildcard-exports from `A`. -/
def cycEnv (A B : String) : Env :=
  { hostGetMetadataFor := fun f =>
      if f = A then some [⟨3, some [("a", MetaVal.num 1)], some [⟨none, B⟩]⟩]
      else if f = B then some [⟨3, some [("b", MetaVal.num 2)], some [⟨none, A⟩]⟩]
      else none,
    hostModuleNameToFileName := fun m _ => some m,
    summaryResolveSummary := fun _ => none,
    summaryGetSymbolsOf := fun _ => [],
    hasErrorRecorder := true }

/-- A version-99 document for file `F`, declaring `a = 5`. -/
def doc99 : ModuleMetadata :=
  ⟨99, some [("a", MetaVal.num 5)], none⟩

/-- Environment whose file `F` only offers the version-99 document. -/
def env99 : Env :=
  { hostGetMetadataFor := fun f => if f = "F" then some [doc99] else none,
    hostModuleNameToFileName := fun m _ => some m,
    summaryResolveSummary := fun _ => none,
    summaryGetSymbolsOf := fun _ => [],
    hasErrorRecorder := true }

/-- Two candidate documents with the same (supported) version, to exercise
the first-wins tie break. -/
def docP : ModuleMetadata := ⟨3, some [("p", MetaVal.num 1)], none⟩

def docQ : ModuleMetadata := ⟨3, some [("q", MetaVal.num 2)], none⟩

/-- Environment whose host offers two version-3 documents for file `F`. -/
def envC5 : Env :=
  { hostGetMetadataFor := fun f => if f = "F" then some [docP, docQ] else none,
    hostModuleNameToFileName := fun m _ => some m,
    summaryResolveSummary := fun _ => none,
    summaryGetSymbolsOf := fun _ => [],
    hasErrorRecorder := true }

/-- Environment with an empty host (every module specifier unresolvable). -/
def envTriv : Env :=
  { hostGetMetadataFor := fun _ => none,
    hostModuleNameToFileName := fun _ _ => none,
    summaryResolveSummary := fun _ => none,
    summaryGetSymbolsOf := fun _ => [],
    hasErrorRecorder := true }

/-- A `'function'` metadata node with the given parameter names and body. -/
def fnNode (ps : List String) (body : MetaVal) : MetaVal :=
  MetaVal.map [("__symbolic", MetaVal.str "function"),
               ("parameters", MetaVal.arr (ps.map MetaVal.str)),
               ("body", body)]

/-- A `'reference'` metadata node without a module specifier. -/
def refNode (x : String) : MetaVal :=
  MetaVal.map [("__symbolic", MetaVal.str "reference"), ("name", MetaVal.str x)]

/-- A `'reference'` metadata node with a module specifier. -/
def refNodeM (m x : String) : MetaVal :=
  MetaVal.map [("__symbolic", MetaVal.str "reference"),
               ("module", MetaVal.str m), ("name", MetaVal.str x)]

/-- The error marker produced for an unresolvable module specifier. -/
def errorNode (m file : String) : MetaVal :=
  MetaVal.map [("__symbolic", MetaVal.str "error"),
               ("message", MetaVal.str (errorMessageFor m file))]

/-! ### Helper lemmas -/

/-- The cycle guard: `_createSymbolsOf` is a pure no-op on a file already in
the visited set, at any fuel. -/
theorem createSymbolsOf_visited (env : Env) (fuel : Nat) (f : String) (st : RState)
    (h : st.resolvedFilePaths.contains f = true) :
    createSymbolsOf env fuel f st = (Except.ok (), st) := by
  have hm : f ∈ st.resolvedFilePaths := by simpa using h
  cases fuel <;> simp [createSymbolsOf, hm]

theorem alookup_append_self {α : Type} (l : List (String × α)) (k : String) (v : α)
    (h : alookup l k = none) : alookup (l ++ [(k, v)]) k = some v := by
  induction l with
  | nil => simp [alookup]
  | cons p rest ih =>
    obtain ⟨k', v'⟩ := p
    unfold alookup at h ⊢
    split at h
    · exact absurd h (by simp)
    · simp [*]

theorem mem_insertDistinct (acc : List StaticSymbol) (y x : StaticSymbol) :
    x ∈ insertDistinct acc y ↔ x ∈ acc ∨ x = y := by
  unfold insertDistinct
  split
  · rename_i hy
    constructor
    · exact Or.inl
    · rintro (hx | rfl)
      · exact hx
      · exact hy
  · simp

theorem nodup_insertDistinct (acc : List StaticSymbol) (y : StaticSymbol)
    (h : acc.Nodup) : (insertDistinct acc y).Nodup := by
  unfold insertDistinct
  split
  · exact h
  · rename_i hy
    simp [List.nodup_append, h]
    exact hy

theorem mem_insertAll (xs : List StaticSymbol) (acc : List StaticSymbol) (x : StaticSymbol) :
    x ∈ insertAll acc xs ↔ x ∈ acc ∨ x ∈ xs := by
  induction xs generalizing acc with
  | nil => simp [insertAll]
  | cons y ys ih =>
    show x ∈ insertAll (insertDistinct acc y) ys ↔ _
    rw [ih, mem_insertDistinct]
    simp [or_assoc]

theorem nodup_insertAll (xs : List StaticSymbol) (acc : List StaticSymbol)
    (h : acc.Nodup) : (insertAll acc xs).Nodup := by
  induction xs generalizing acc with
  | nil => exact h
  | cons y ys ih => exact ih _ (nodup_insertDistinct _ _ h)

theorem mem_collectFold (f : String) (entries : List (StaticSymbol × MetaVal))
    (acc : List StaticSymbol) (x : StaticSymbol) :
    x ∈ entries.foldl (collectStep f) acc ↔
      x ∈ acc ∨ (x.filePath = f ∧ x ∈ entries.map Prod.fst) := by
  induction entries generalizing acc with
  | nil => simp
  | cons p es ih =>
    show x ∈ es.foldl (collectStep f) (collectStep f acc p) ↔ _
    rw [ih]
    unfold collectStep
    split
    · rename_i hp
      rw [mem_insertDistinct]
      constructor
      · rintro ((hx | rfl) | hrest)
        · exact Or.inl hx
        · exact Or.inr ⟨hp, by simp⟩
        · exact Or.inr ⟨hrest.1, by simp [hrest.2]⟩
      · rintro (hx | ⟨hf, hmem⟩)
        · exact Or.inl (Or.inl hx)
        · rcases (by simpa using hmem : x = p.1 ∨ x ∈ es.map Prod.fst) with rfl | hes
          · exact Or.inl (Or.inr rfl)
          · exact Or.inr ⟨hf, hes⟩
    · rename_i hp
      constructor
      · rintro (hx | hrest)
        · exact Or.inl hx
        · exact Or.inr ⟨hrest.1, by simp [hrest.2]⟩
      · rintro (hx | ⟨hf, hmem⟩)
        · exact Or.inl hx
        · rcases (by simpa using hmem : x = p.1 ∨ x ∈ es.map Prod.fst) with rfl | hes
          · exact absurd hf hp
          · exact Or.inr ⟨hf, hes⟩

theorem nodup_collectFold (f : String) (entries : List (StaticSymbol × MetaVal))
    (acc : List StaticSymbol) (h : acc.Nodup) :
    (entries.foldl (collectStep f) acc).Nodup := by
  induction entries generalizing acc with
  | nil => exact h
  | cons p es ih =>
    refine ih _ ?_
    unfold collectStep
    split
    · exact nodup_insertDistinct _ _ h
    · exact h

theorem mem_collectSymbols (env : Env) (f : String) (st : RState) (x : StaticSymbol) :
    x ∈ collectSymbols env f st ↔
      x ∈ env.summaryGetSymbolsOf f ∨
        (x.filePath = f ∧ x ∈ st.resolvedSymbols.map Prod.fst) := by
  unfold collectSymbols
  rw [mem_collectFold, mem_insertAll]
  simp

theorem nodup_collectSymbols (env : Env) (f : String) (st : RState) :
    (collectSymbols env f st).Nodup :=
  nodup_collectFold _ _ _ (nodup_insertAll _ _ List.nodup_nil)

/-- Invariant of the maximum-version fold: either no candidate beats the
running maximum and the accumulator survives, or the result is the first
candidate of maximal version (everything before it strictly smaller,
everything after it no larger). -/
theorem selectFold_spec (mds : List ModuleMetadata) (v : Int) (o : Option ModuleMetadata) :
    (mds.foldl selectStep (v, o) = (v, o) ∧ ∀ x ∈ mds, x.version ≤ v) ∨
      (∃ pre md post, mds = pre ++ md :: post ∧
        mds.foldl selectStep (v, o) = (md.version, some md) ∧ v < md.version ∧
        (∀ x ∈ pre, x.version < md.version) ∧ (∀ x ∈ post, x.version ≤ md.version)) := by
  induction mds generalizing v o with
  | nil => exact Or.inl ⟨rfl, by simp⟩
  | cons x rest ih =>
    rw [List.foldl_cons]
    by_cases hx : x.version > v
    · have hstep : selectStep (v, o) x = (x.version, some x) := by
        simp [selectStep, hx]
      rw [hstep]
      rcases ih x.version (some x) with ⟨heq, hall⟩ | ⟨pre, md, post, hsplit, heq, hlt, hpre, hpost⟩
      · exact Or.inr ⟨[], x, rest, by simp, heq, hx, by simp, hall⟩
      · refine Or.inr ⟨x :: pre, md, post, by simp [hsplit], heq,
          lt_trans hx hlt, ?_, hpost⟩
        intro y hy
        rcases List.mem_cons.mp hy with rfl | hy'
        · exact hlt
        · exact hpre y hy'
    · have hstep : selectStep (v, o) x = (v, o) := by
        simp [selectStep, hx]
      rw [hstep]
      rcases ih v o with ⟨heq, hall⟩ | ⟨pre, md, post, hsplit, heq, hlt, hpre, hpost⟩
      · refine Or.inl ⟨heq, ?_⟩
        intro y hy
        rcases List.mem_cons.mp hy with rfl | hy'
        · exact le_of_not_lt hx
        · exact hall y hy'
      · refine Or.inr ⟨x :: pre, md, post, by simp [hsplit], heq, hlt, ?_, hpost⟩
        intro y hy
        rcases List.mem_cons.mp hy with rfl | hy'
        · exact lt_of_le_of_lt (le_of_not_lt hx) hlt
        · exact hpre y hy'

/-- When `selectMeta` picks a document, it is the first document carrying the
maximal version. -/
theorem selectMeta_spec (mds : List ModuleMetadata) (md : ModuleMetadata)
    (h : selectMeta mds = some md) :
    ∃ pre post, mds = pre ++ md :: post ∧
      (∀ x ∈ pre, x.version < md.version) ∧ (∀ x ∈ post, x.version ≤ md.version) := by
  rcases selectFold_spec mds (-1) none with ⟨heq, _⟩ | ⟨pre, md', post, hsplit, heq, _, hpre, hpost⟩
  · rw [selectMeta, heq] at h
    exact absurd h (by simp)
  · rw [selectMeta, heq] at h
    obtain rfl : md' = md := by simpa using h
    exact ⟨pre, post, hsplit, hpre, hpost⟩

/-- Every entry of the resolved-symbol cache has an empty member path: only
base handles are ever registered by the export walker. -/
def membersEmptyInv (st : RState) : Prop :=
  ∀ p ∈ st.resolvedSymbols, p.1.members = ([] : List String)

theorem aset_subset {κ α : Type} [DecidableEq κ] (l : List (κ × α)) (k : κ) (v : α)
    (p : κ × α) (h : p ∈ aset l k v) : p = (k, v) ∨ p ∈ l := by
  induction l with
  | nil => simpa [aset] using h
  | cons q rest ih =>
    unfold aset at h
    split at h
    · rcases List.mem_cons.mp h with rfl | hrest
      · exact Or.inl rfl
      · exact Or.inr (List.mem_cons_of_mem _ hrest)
    · rcases List.mem_cons.mp h with rfl | hrest
      · exact Or.inr (List.mem_cons_self _ _)
      · rcases ih hrest with hkv | hl
        · exact Or.inl hkv
        · exact Or.inr (List.mem_cons_of_mem _ hl)

theorem setPairs_subset (ps : List (StaticSymbol × MetaVal))
    (l : List (StaticSymbol × MetaVal)) (p : StaticSymbol × MetaVal)
    (h : p ∈ setPairs l ps) : p ∈ l ∨ p ∈ ps := by
  induction ps generalizing l with
  | nil => exact Or.inl h
  | cons q qs ih =>
    rcases ih (aset l q.1 q.2) h with hin | hqs
    · rcases aset_subset l q.1 q.2 p hin with rfl | hl
      · exact Or.inr (List.mem_cons_self _ _)
      · exact Or.inl hl
    · exact Or.inr (List.mem_cons_of_mem _ hqs)

/-- `getModuleMetadata` never touches the resolved-symbol cache. -/
theorem getModuleMetadata_resolved (env : Env) (m : String) (st : RState) :
    ((getModuleMetadata env m st).2).resolvedSymbols = st.resolvedSymbols := by
  unfold getModuleMetadata
  repeat' first | rfl | split | simp only []

theorem declaredSymbols_keys (env : Env) (f : String) (md : ModuleMetadata)
    (p : StaticSymbol × MetaVal) (h : p ∈ declaredSymbols env f md) :
    p.1.members = ([] : List String) := by
  unfold declaredSymbols at h
  rcases List.mem_map.mp h with ⟨q, _, rfl⟩
  rfl

theorem explicitPairs_keys (env : Env) (f m : String) (specs : List ExportSpec)
    (p : StaticSymbol × MetaVal) (h : p ∈ explicitPairs env f m specs) :
    p.1.members = ([] : List String) := by
  unfold explicitPairs at h
  rcases List.mem_filterMap.mp h with ⟨es, _, hes⟩
  rcases hr : resolveModule env m f with _ | rm <;> rw [hr] at hes
  · exact absurd hes (by simp)
  · obtain rfl : p = (⟨f, exportAlias es, []⟩, MetaVal.sym ⟨rm, exportSource es, []⟩) := by
      simpa using hes.symm
    rfl

/-- Export processing preserves the empty-members cache invariant, and every
pair it produces is keyed by an empty-member handle. -/
theorem processExportsGo_inv (env : Env) (gso : String → M (List StaticSymbol))
    (file : String)
    (hg : ∀ f st x, gso f st = x → membersEmptyInv st → membersEmptyInv x.2) :
    ∀ (dirs : List ExportDirective) (st : RState) (x : Except RErr (List (StaticSymbol × MetaVal)) × RState),
      processExportsGo env gso file dirs st = x → membersEmptyInv st →
      membersEmptyInv x.2 ∧
        ∀ prs, x.1 = Except.ok prs → ∀ p ∈ prs, p.1.members = ([] : List String) := by
  intro dirs
  induction dirs with
  | nil =>
    intro st x h hs
    obtain rfl : x = (Except.ok ([] : List (StaticSymbol × MetaVal)), st) := h.symm
    refine ⟨hs, ?_⟩
    intro prs hprs p hp
    obtain rfl : ([] : List (StaticSymbol × MetaVal)) = prs := by simpa using hprs
    simp at hp
  | cons d ds ih =>
    intro st x h hs
    unfold processExportsGo at h
    split at h
    · -- explicit export list
      split at h
      · -- recursive processing of the remaining directives succeeded
        rename_i heq₀ rest st' heq
        have hrec := ih st (Except.ok rest, st') heq hs
        rw [← h]
        refine ⟨hrec.1, ?_⟩
        intro prs hprs p hp
        obtain rfl : explicitPairs env file d.fromModule _ ++ rest = prs := by simpa using hprs
        rcases List.mem_append.mp hp with hex | hr
        · exact explicitPairs_keys _ _ _ _ _ hex
        · exact hrec.2 rest rfl p hr
      · rename_i heq₀ e st' heq
        have hrec := ih st (Except.error e, st') heq hs
        rw [← h]
        exact ⟨hrec.1, by simp⟩
    · -- wildcard directive
      split at h
      · exact ih st x h hs
      · rename_i heq₀ rm hrm
        split at h
        · rename_i e st' heq
          have hst' := hg rm st (Except.error e, st') heq hs
          rw [← h]
          exact ⟨hst', by simp⟩
        · rename_i targets st' heq
          have hst' := hg rm st (Except.ok targets, st') heq hs
          split at h
          · rename_i rest st2 heq2
            have hrec := ih st' (Except.ok rest, st2) heq2 hst'
            rw [← h]
            refine ⟨hrec.1, ?_⟩
            intro prs hprs p hp
            obtain rfl : (targets.map fun t =>
                ((⟨file, t.name, []⟩ : StaticSymbol), MetaVal.sym t)) ++ rest = prs := by
              simpa using hprs
            rcases List.mem_append.mp hp with hw | hr
            · rcases List.mem_map.mp hw with ⟨t, _, rfl⟩
              rfl
            · exact hrec.2 rest rfl p hr
          · rename_i e st2 heq2
            have hrec := ih st' (Except.error e, st2) heq2 hst'
            rw [← h]
            exact ⟨hrec.1, by simp⟩

/-- The export walker preserves the empty-members cache invariant. -/
theorem createSymbolsOf_inv (fuel : Nat) (env : Env) (f : String) (st : RState)
    (x : Except RErr Unit × RState) (h : createSymbolsOf env fuel f st = x)
    (hs : membersEmptyInv st) : membersEmptyInv x.2 := by
  induction fuel generalizing f st x with
  | zero =>
    unfold createSymbolsOf at h
    split at h <;> rw [← h] <;> exact hs
  | succ fuel ih =>
    unfold createSymbolsOf at h
    split at h
    · rw [← h]; exact hs
    · have hgso : ∀ f' st' x', getSymbolsOfAux env (createSymbolsOf env fuel) f' st' = x' →
          membersEmptyInv st' → membersEmptyInv x'.2 := by
        intro f' st' x' hx hs'
        unfold getSymbolsOfAux at hx
        split at hx <;> rename_i heq <;> rw [← hx] <;>
          exact ih f' st' _ heq hs'
      split at h
      · rename_i e st2 heq
        have h2 : membersEmptyInv st2 := by
          unfold membersEmptyInv
          have := getModuleMetadata_resolved env f
            { st with resolvedFilePaths := f :: st.resolvedFilePaths }
          rw [heq] at this
          rw [show st2 = (Except.error e, st2).2 from rfl, this]
          exact hs
        rw [← h]; exact h2
      · rename_i md st2 heq
        have h2 : membersEmptyInv st2 := by
          unfold membersEmptyInv
          have := getModuleMetadata_resolved env f
            { st with resolvedFilePaths := f :: st.resolvedFilePaths }
          rw [heq] at this
          rw [show st2 = (Except.ok md, st2).2 from rfl, this]
          exact hs
        split at h
        · rename_i e st3 heq3
          have h3 := processExportsGo_inv env _ f hgso (md.exports.getD []) st2
            (Except.error e, st3) heq3 h2
          rw [← h]; exact h3.1
        · rename_i exps st3 heq3
          have h3 := processExportsGo_inv env _ f hgso (md.exports.getD []) st2
            (Except.ok exps, st3) heq3 h2
          rw [← h]
          intro p hp
          rcases setPairs_subset _ _ _ hp with hold | hnew
          · exact h3.1 p hold
          · rcases List.mem_append.mp hnew with hdecl | hexp
            · exact declaredSymbols_keys env f md p hdecl
            · exact h3.2 exps rfl p hexp

theorem resolveSymbolBase_inv (env : Env) (fuel : Nat) (f n : String) (st : RState)
    (x : Except RErr (Option (StaticSymbol × MetaVal)) × RState)
    (h : resolveSymbolBase env fuel f n st = x) (hs : membersEmptyInv st) :
    membersEmptyInv x.2 := by
  unfold resolveSymbolBase at h
  split at h
  · rw [← h]; exact hs
  · split at h <;> rename_i heq <;> rw [← h] <;>
      exact createSymbolsOf_inv fuel env f st _ heq hs

theorem resolveSymbolBase_visitedState (env : Env) (fuel : Nat) (f n : String) (st : RState)
    (x : Except RErr (Option (StaticSymbol × MetaVal)) × RState)
    (h : resolveSymbolBase env fuel f n st = x)
    (hc : st.resolvedFilePaths.contains f = true) : x.2 = st := by
  unfold resolveSymbolBase at h
  split at h
  · rw [← h]
  · rw [createSymbolsOf_visited env fuel f st hc] at h
    rw [← h]

/-! ### Claims -/

/-- Claim C1: with a mutual wildcard-export cycle between files `A` and `B`,
`getSymbolsOf A` terminates (any fuel of at least 2 yields the same
successful result, i.e. the recursion is cut by the visited set marked
before export processing) and the returned symbol list has no duplicates. -/
theorem c1_cycle_terminates (A B : String) (n : Nat)
    (hAB : A ≠ B) (hA : A ≠ "") (hB : B ≠ "") :
    (getSymbolsOf (cycEnv A B) (n + 2) A initialState).1 =
      Except.ok [⟨A, "a", []⟩, ⟨A, "b", []⟩] ∧
    ([⟨A, "a", []⟩, ⟨A, "b", []⟩] : List StaticSymbol).Nodup := by
  have hBA : B ≠ A := hAB.symm
  constructor
  · simp [getSymbolsOf, getSymbolsOfAux, createSymbolsOf, initialState, cycEnv,
      getModuleMetadata, alookup, selectMeta, selectStep, emptyModuleMetadata,
      SUPPORTED_SCHEMA_VERSION, processExportsGo, resolveModule, declaredSymbols,
      transformVal, setPairs, aset, collectSymbols, collectStep, insertAll,
      insertDistinct, createSymbolsOf_visited, hAB, hBA, hA, hB]
  · simp [hAB]

theorem c1_witness :
    (getSymbolsOf (cycEnv "a.ts" "b.ts") (0 + 2) "a.ts" initialState).1 =
      Except.ok [⟨"a.ts", "a", []⟩, ⟨"a.ts", "b", []⟩] ∧
    ([⟨"a.ts", "a", []⟩, ⟨"a.ts", "b", []⟩] : List StaticSymbol).Nodup :=
  c1_cycle_terminates "a.ts" "b.ts" 0 (by decide) (by decide) (by decide)

/-- Claim C2: for `export {x as y} from 'B'` in file `A` and `x = 5` declared
in `B`, resolving `(A, y)` yields the handle `(B, x)` as its metadata (an
alias entry, not a copy of `5`), and resolving that handle yields `5`. -/
theorem c2_explicit_reexport_alias :
    resolveSymbol envC2 1 ⟨"A", "y", []⟩ initialState =
      (Except.ok (some (⟨"A", "y", []⟩, MetaVal.sym ⟨"B", "x", []⟩)), stC2a) ∧
    resolveSymbol envC2 1 ⟨"B", "x", []⟩ stC2a =
      (Except.ok (some (⟨"B", "x", []⟩, MetaVal.num 5)), stC2b) :=
  ⟨rfl, rfl⟩

theorem strElems_map (ps : List String) : strElems (ps.map MetaVal.str) = ps := by
  induction ps with
  | nil => rfl
  | cons p rest ih => simp [strElems, ih]

theorem transformVal_str (env : Env) (file : String) (params : List String) (s : String) :
    transformVal env file params (MetaVal.str s) = MetaVal.str s := rfl

theorem transformList_strs (env : Env) (file : String) (params : List String)
    (ps : List String) :
    transformList env file params (ps.map MetaVal.str) = ps.map MetaVal.str := by
  induction ps with
  | nil => rfl
  | cons p rest ih => simp [transformList, transformVal_str, ih]

/-- Claim C3: a reference to a declared function parameter inside the
function's subtree stays a lexical reference marker; the same reference
outside any function scope becomes the handle `(currentFile, name)`; and the
parameter scope is restored after the function subtree, so a sibling of the
function node is transformed with the enclosing scope. -/
theorem c3_function_params_lexical (env : Env) (file : String) (params ps : List String)
    (x : String) (hx : x ∈ ps) (hne : x ≠ "") :
    transformVal env file params (fnNode ps (refNode x)) = fnNode ps (refNode x) ∧
    (params.contains x = false →
      transformVal env file params (refNode x) = MetaVal.sym ⟨file, x, []⟩) ∧
    (∀ v : MetaVal,
      transformVal env file params (MetaVal.arr [fnNode ps (refNode x), v]) =
        MetaVal.arr [fnNode ps (refNode x), transformVal env file params v]) := by
  have hc : (params ++ ps).contains x = true := by
    simp [List.mem_append, hx]
  have h1 : transformVal env file params (fnNode ps (refNode x)) = fnNode ps (refNode x) := by
    simp [fnNode, refNode, transformVal, transformEntries, transformVal_str,
      transformList_strs, alookup, isStrEq, paramNames, strElems_map, refResult,
      asPresentStr, hne, hc]
    exact fun _ => hx
  refine ⟨h1, ?_, ?_⟩
  · intro hnotin
    have hn : x ∉ params := by simpa using hnotin
    simp [refNode, transformVal, refResult, alookup, isStrEq, asPresentStr, hne, hn]
  · intro v
    show MetaVal.arr [transformVal env file params (fnNode ps (refNode x)),
      transformVal env file params v] = _
    rw [h1]

theorem c3_witness :
    transformVal envTriv "f.ts" [] (fnNode ["x"] (refNode "x")) =
      fnNode ["x"] (refNode "x") ∧
    transformVal envTriv "f.ts" [] (refNode "x") = MetaVal.sym ⟨"f.ts", "x", []⟩ ∧
    transformVal envTriv "f.ts" [] (MetaVal.arr [fnNode ["x"] (refNode "x"), MetaVal.num 7]) =
      MetaVal.arr [fnNode ["x"] (refNode "x"), MetaVal.num 7] := by
  have h := c3_function_params_lexical envTriv "f.ts" [] ["x"] "x" (by decide) (by decide)
  exact ⟨h.1, h.2.1 (by decide), (h.2.2 (MetaVal.num 7)).trans (by rfl)⟩

/-- Claim C4: when the selected document's version differs from the supported
version, `getModuleMetadata` reports the mismatch through the error recorder
yet still returns (and caches) the document, so a second call returns the
cached document without a second report; without a recorder the error is
raised to the caller instead.  Concretely, a version-99 document still yields
its declared symbols, with exactly one recorded report. -/
theorem c4_version_mismatch_reported (env : Env) (f : String) (st : RState)
    (mds : List ModuleMetadata) (md : ModuleMetadata)
    (hrec : env.hasErrorRecorder = true)
    (hmiss : alookup st.metadataCache f = none)
    (hhost : env.hostGetMetadataFor f = some mds)
    (hsel : selectMeta mds = some md)
    (hv : md.version ≠ SUPPORTED_SCHEMA_VERSION) :
    getModuleMetadata env f st =
      (Except.ok md,
       { st with metadataCache := st.metadataCache ++ [(f, md)],
                 errors := st.errors ++ [mismatchMessage f md.version] }) ∧
    getModuleMetadata env f
        { st with metadataCache := st.metadataCache ++ [(f, md)],
                  errors := st.errors ++ [mismatchMessage f md.version] } =
      (Except.ok md,
       { st with metadataCache := st.metadataCache ++ [(f, md)],
                 errors := st.errors ++ [mismatchMessage f md.version] }) ∧
    (getModuleMetadata { env with hasErrorRecorder := false } f st).1 =
      Except.error (RErr.thrown (mismatchMessage f md.version)) ∧
    (getSymbolsOf env99 1 "F" initialState).1 = Except.ok [⟨"F", "a", []⟩] ∧
    (getSymbolsOf env99 1 "F" initialState).2.errors = [mismatchMessage "F" 99] := by
  refine ⟨?_, ?_, ?_, rfl, rfl⟩
  · unfold getModuleMetadata
    rw [hmiss, hhost]
    dsimp only
    rw [hsel]
    simp [hv, hrec]
  · unfold getModuleMetadata
    rw [alookup_append_self st.metadataCache f md hmiss]
  · unfold getModuleMetadata
    rw [hmiss, hhost]
    dsimp only
    rw [hsel]
    simp [hv]

theorem c4_witness :
    getModuleMetadata env99 "F" initialState =
      (Except.ok doc99,
       { initialState with metadataCache := initialState.metadataCache ++ [("F", doc99)],
                           errors := initialState.errors ++ [mismatchMessage "F" 99] }) ∧
    (getModuleMetadata { env99 with hasErrorRecorder := false } "F" initialState).1 =
      Except.error (RErr.thrown (mismatchMessage "F" 99)) := by
  have h := c4_version_mismatch_reported env99 "F" initialState [doc99] doc99
    rfl rfl rfl rfl (by decide)
  exact ⟨h.1, h.2.2.1⟩

/-- Claim C5: on a metadata cache miss, the document kept is the first
host-offered document with the maximal version (strictly greater than every
earlier candidate, at least as great as every later one); if the host offers
none, a synthesized empty document at the supported version (3) with an
empty declaration mapping is returned. -/
theorem c5_max_version_selection (env : Env) (f : String) (st : RState)
    (hmiss : alookup st.metadataCache f = none)
    (hrec : env.hasErrorRecorder = true) :
    ((env.hostGetMetadataFor f).getD [] = [] →
      (getModuleMetadata env f st).1 = Except.ok emptyModuleMetadata ∧
      emptyModuleMetadata.version = SUPPORTED_SCHEMA_VERSION ∧
      emptyModuleMetadata.metadata = some []) ∧
    (∀ (mds : List ModuleMetadata) (md : ModuleMetadata),
      env.hostGetMetadataFor f = some mds → selectMeta mds = some md →
      (getModuleMetadata env f st).1 = Except.ok md ∧
      ∃ pre post, mds = pre ++ md :: post ∧
        (∀ x ∈ pre, x.version < md.version) ∧ (∀ x ∈ post, x.version ≤ md.version)) := by
  constructor
  · intro hnone
    refine ⟨?_, rfl, rfl⟩
    unfold getModuleMetadata
    rw [hmiss]
    rcases hh : env.hostGetMetadataFor f with _ | mds
    · simp [emptyModuleMetadata]
    · rw [hh] at hnone
      obtain rfl : mds = [] := by simpa using hnone
      simp [selectMeta, emptyModuleMetadata]
  · intro mds md hh hsel
    refine ⟨?_, selectMeta_spec mds md hsel⟩
    unfold getModuleMetadata
    rw [hmiss, hh]
    dsimp only
    rw [hsel]
    by_cases hv : md.version = SUPPORTED_SCHEMA_VERSION <;> simp [hv, hrec]

theorem c5_witness :
    ((envC5.hostGetMetadataFor "F").getD [] = [] →
      (getModuleMetadata envC5 "F" initialState).1 = Except.ok emptyModuleMetadata ∧
      emptyModuleMetadata.version = SUPPORTED_SCHEMA_VERSION ∧
      emptyModuleMetadata.metadata = some []) ∧
    (∀ (mds : List ModuleMetadata) (md : ModuleMetadata),
      envC5.hostGetMetadataFor "F" = some mds → selectMeta mds = some md →
      (getModuleMetadata envC5 "F" initialState).1 = Except.ok md ∧
      ∃ pre post, mds = pre ++ md :: post ∧
        (∀ x ∈ pre, x.version < md.version) ∧ (∀ x ∈ post, x.version ≤ md.version)) :=
  c5_max_version_selection envC5 "F" initialState rfl rfl

/-- Claim C6: a reference node whose module specifier cannot be resolved is
replaced by an error marker whose message names the specifier and the
current file, while sibling nodes (in an enclosing array or object) are
still transformed normally. -/
theorem c6_unresolved_module_error_marker (env : Env) (file : String)
    (params : List String) (m x : String)
    (hm : env.hostModuleNameToFileName m file = none)
    (hmne : m ≠ "") (hxne : x ≠ "") :
    transformVal env file params (refNodeM m x) = errorNode m file ∧
    errorMessageFor m file =
      "Could not resolve " ++ m ++ " relative to " ++ file ++ "." ∧
    (∀ v : MetaVal,
      transformVal env file params (MetaVal.arr [refNodeM m x, v]) =
        MetaVal.arr [errorNode m file, transformVal env file params v]) ∧
    (∀ v : MetaVal,
      transformVal env file params (MetaVal.map [("a", refNodeM m x), ("b", v)]) =
        MetaVal.map [("a", errorNode m file), ("b", transformVal env file params v)]) := by
  have h1 : transformVal env file params (refNodeM m x) = errorNode m file := by
    simp [refNodeM, errorNode, transformVal, refResult, alookup, isStrEq,
      asPresentStr, resolveModule, hm, hmne, hxne]
  refine ⟨h1, rfl, ?_, ?_⟩
  · intro v
    show MetaVal.arr [transformVal env file params (refNodeM m x),
      transformVal env file params v] = _
    rw [h1]
  · intro v
    show MetaVal.map [("a", transformVal env file params (refNodeM m x)),
      ("b", transformVal env file params v)] = _
    rw [h1]

theorem c6_witness :
    transformVal envTriv "f.ts" [] (refNodeM "mod" "x") = errorNode "mod" "f.ts" ∧
    errorMessageFor "mod" "f.ts" =
      "Could not resolve " ++ "mod" ++ " relative to " ++ "f.ts" ++ "." := by
  have h := c6_unresolved_module_error_marker envTriv "f.ts" [] "mod" "x"
    rfl (by decide) (by decide)
  exact ⟨h.1, h.2.1⟩

/-- Claim C7: when the resolved base metadata of a class symbol is a
`'class'` object with a `statics` mapping containing the single requested
member, resolving the member-path handle returns that static member's
value. -/
theorem c7_class_statics_projection (env : Env) (fuel : Nat) (file C m : String)
    (st st' : RState) (kvs sl : List (String × MetaVal)) (v : MetaVal)
    (hbase : resolveSymbolBase env fuel file C st =
      (Except.ok (some (⟨file, C, []⟩, MetaVal.map kvs)), st'))
    (hclass : alookup kvs "__symbolic" = some (MetaVal.str "class"))
    (hstat : alookup kvs "statics" = some (MetaVal.map sl))
    (hv : alookup sl m = some v) :
    resolveSymbol env fuel ⟨file, C, [m]⟩ st =
      (Except.ok (some (⟨file, C, [m]⟩, v)), st') := by
  show resolveSymbolMembers env fuel ⟨file, C, [m]⟩ st = _
  unfold resolveSymbolMembers
  dsimp only
  rw [hbase]
  simp [isClassMeta, isStrEq, hclass, staticsProject, hstat, truthy, indexVal, hv]

/-- The transformed class metadata of `envC7`'s declaration `C`. -/
def classMeta : MetaVal :=
  MetaVal.map [("__symbolic", MetaVal.str "class"),
               ("statics", MetaVal.map [("foo", MetaVal.num 42)])]

/-- Environment whose file `C.ts` declares class `C` with
`statics = { foo: 42 }`. -/
def envC7 : Env :=
  { hostGetMetadataFor := fun f =>
      if f = "C.ts" then some [⟨3, some [("C", classMeta)], none⟩] else none,
    hostModuleNameToFileName := fun m _ => some m,
    summaryResolveSummary := fun _ => none,
    summaryGetSymbolsOf := fun _ => [],
    hasErrorRecorder := true }

/-- Resolver state after processing `C.ts` of `envC7`. -/
def stC7 : RState :=
  ⟨[("C.ts", ⟨3, some [("C", classMeta)], none⟩)],
   [(⟨"C.ts", "C", []⟩, classMeta)], ["C.ts"], []⟩

theorem c7_witness :
    resolveSymbol envC7 1 ⟨"C.ts", "C", ["foo"]⟩ initialState =
      (Except.ok (some (⟨"C.ts", "C", ["foo"]⟩, MetaVal.num 42)), stC7) :=
  c7_class_statics_projection envC7 1 "C.ts" "C" "foo" initialState stC7
    [("__symbolic", MetaVal.str "class"), ("statics", MetaVal.map [("foo", MetaVal.num 42)])]
    [("foo", MetaVal.num 42)] (MetaVal.num 42) rfl rfl rfl rfl

/-- Claim C8: when the resolved base metadata is neither a handle nor a
`'class'` object, a member-path handle resolves to the step-by-step walk of
the member path through the base value, returned as a resolved symbol even
when some step yields no value (the walk stops at the first falsy value and
returns what was accumulated). -/
theorem c8_member_walk_partial (env : Env) (fuel : Nat) (file name : String)
    (ms : List String) (st st' : RState) (bm : MetaVal)
    (hbase : resolveSymbolBase env fuel file name st =
      (Except.ok (some (⟨file, name, []⟩, bm)), st'))
    (hnsym : ∀ b : StaticSymbol, bm ≠ MetaVal.sym b)
    (hncls : isClassMeta bm = false) :
    resolveSymbol env fuel ⟨file, name, ms⟩ st =
      (Except.ok (some (⟨file, name, ms⟩, walkMembers bm ms)), st') ∧
    (∀ (v : MetaVal) (ms' : List String), truthy v = false → walkMembers v ms' = v) := by
  constructor
  · cases ms with
    | nil =>
      show resolveSymbolBase env fuel file name st = _
      rw [hbase]
      rfl
    | cons m ms' =>
      show resolveSymbolMembers env fuel ⟨file, name, m :: ms'⟩ st = _
      unfold resolveSymbolMembers
      dsimp only
      rw [hbase]
      cases bm with
      | sym b => exact absurd rfl (hnsym b)
      | null => simp [isClassMeta]
      | num n => simp [isClassMeta]
      | str s => simp [isClassMeta]
      | bool b => simp [isClassMeta]
      | arr xs => simp [isClassMeta]
      | map kvs => simp [hncls]
  · intro v ms' hv
    cases ms' <;> simp [walkMembers, hv]

theorem c8_witness :
    resolveSymbol envC2 1 ⟨"B", "x", ["y"]⟩ stC2b =
      (Except.ok (some (⟨"B", "x", ["y"]⟩, MetaVal.null)), stC2b) := by
  have h := c8_member_walk_partial envC2 1 "B" "x" ["y"] stC2b stC2b (MetaVal.num 5)
    rfl (by intro b; simp) rfl
  exact h.1

/-- Claim C9: `getSymbolsOf` returns, after running the export walker for the
file, exactly the union of the summary collaborator's handles for the file
and the cached resolved-symbol handles declared in the file (handles
declared in other files are excluded), without duplicates. -/
theorem c9_getSymbolsOf_union (env : Env) (fuel : Nat) (f : String) (st st' : RState)
    (h : createSymbolsOf env fuel f st = (Except.ok (), st')) :
    getSymbolsOf env fuel f st = (Except.ok (collectSymbols env f st'), st') ∧
    (∀ x : StaticSymbol, x ∈ collectSymbols env f st' ↔
      x ∈ env.summaryGetSymbolsOf f ∨
        (x.filePath = f ∧ x ∈ st'.resolvedSymbols.map Prod.fst)) ∧
    (collectSymbols env f st').Nodup := by
  refine ⟨?_, fun x => mem_collectSymbols env f st' x, nodup_collectSymbols env f st'⟩
  unfold getSymbolsOf getSymbolsOfAux
  rw [h]

theorem c9_witness :
    getSymbolsOf envC2 1 "A" initialState =
      (Except.ok (collectSymbols envC2 "A" stC2a), stC2a) ∧
    (collectSymbols envC2 "A" stC2a).Nodup := by
  have h := c9_getSymbolsOf_union envC2 1 "A" initialState stC2a rfl
  exact ⟨h.1, h.2.2⟩

/-- Claim C10: `resolveSymbol` never registers a member-path handle in the
resolved-symbol cache — every cached key keeps an empty member path, so in
particular the resolved handle itself is absent from the cache whenever its
member path is non-empty — and once the declaring file is in the visited set
a (repeated) resolution leaves the whole state unchanged, recomputing the
projection on demand. -/
theorem c10_member_handles_not_cached (env : Env) (fuel : Nat) (s : StaticSymbol)
    (st : RState) (r : Except RErr (Option (StaticSymbol × MetaVal))) (st' : RState)
    (hinv : membersEmptyInv st) (h : resolveSymbol env fuel s st = (r, st')) :
    membersEmptyInv st' ∧
    (s.members ≠ [] → ∀ v : MetaVal, (s, v) ∉ st'.resolvedSymbols) ∧
    (st.resolvedFilePaths.contains s.filePath = true → st' = st) := by
  have hmain : membersEmptyInv st' ∧
      (st.resolvedFilePaths.contains s.filePath = true → st' = st) := by
    unfold resolveSymbol at h
    rcases hms : s.members with _ | ⟨m, ms⟩ <;> rw [hms] at h
    · exact ⟨resolveSymbolBase_inv env fuel s.filePath s.name st _ h hinv,
        fun hc => resolveSymbolBase_visitedState env fuel s.filePath s.name st _ h hc⟩
    · unfold resolveSymbolMembers at h
      dsimp only at h
      split at h
      · rename_i e st1 heq
        obtain ⟨rfl, rfl⟩ : Except.error e = r ∧ st1 = st' := by
          simpa using h
        exact ⟨resolveSymbolBase_inv env fuel s.filePath s.name st _ heq hinv,
          fun hc => resolveSymbolBase_visitedState env fuel s.filePath s.name st _ heq hc⟩
      · rename_i st1 heq
        obtain ⟨rfl, rfl⟩ : (Except.ok none : Except RErr (Option (StaticSymbol × MetaVal))) = r ∧ st1 = st' := by
          simpa using h
        exact ⟨resolveSymbolBase_inv env fuel s.filePath s.name st _ heq hinv,
          fun hc => resolveSymbolBase_visitedState env fuel s.filePath s.name st _ heq hc⟩
      · rename_i b0 bm st1 heq
        have hinv1 : membersEmptyInv st1 :=
          resolveSymbolBase_inv env fuel s.filePath s.name st _ heq hinv
        have hvis1 : st.resolvedFilePaths.contains s.filePath = true → st1 = st :=
          fun hc => resolveSymbolBase_visitedState env fuel s.filePath s.name st _ heq hc
        have hst : st' = st1 := by
          split at h
          · obtain ⟨-, rfl⟩ :
                (Except.ok (some (s, MetaVal.sym _)) :
                  Except RErr (Option (StaticSymbol × MetaVal))) = r ∧ st1 = st' := by
              simpa using h
            rfl
          · split at h
            · obtain ⟨-, rfl⟩ : _ ∧ st1 = st' := by
                refine ⟨trivial, ?_⟩
                simpa using congrArg Prod.snd h
              rfl
            · obtain ⟨-, rfl⟩ : _ ∧ st1 = st' := by
                refine ⟨trivial, ?_⟩
                simpa using congrArg Prod.snd h
              rfl
        exact ⟨hst ▸ hinv1, fun hc => hst ▸ hvis1 hc⟩
  refine ⟨hmain.1, ?_, hmain.2⟩
  intro hne v hmem
  exact hne (hmain.1 (s, v) hmem)

theorem c10_witness :
    membersEmptyInv stC2a ∧
    (((⟨"A", "y", ["m"]⟩ : StaticSymbol), MetaVal.num 0) ∉ stC2a.resolvedSymbols) := by
  have h := c10_member_handles_not_cached envC2 1 ⟨"A", "y", ["m"]⟩ initialState
    (Except.ok (some (⟨"A", "y", ["m"]⟩, MetaVal.sym ⟨"B", "x", ["m"]⟩))) stC2a
    (by simp [membersEmptyInv, initialState]) rfl
  exact ⟨h.1, h.2.1 (by simp) (MetaVal.num 0)⟩
